import Mathlib

/-!
Verification of the FileSortify multi-path file organization engine.

The frontend stores (`historyStore.ts`, `pathsStore.ts`, `configStore.ts`,
`statsStore.ts`), the `file-organized` event listener (`I18nContext.tsx`)
and the undo handler (`HistoryView.tsx`) are embedded directly from the
TypeScript source.  The Rust backend commands (`move_file_direct`,
`toggle_monitoring`, `organize_files`) are not part of the available
sources; where a claim needs them they are modelled from the
specification, and each such definition is marked `Modelled from the
spec:` in its doc comment.

Timestamps appear in two representations, following the code: where
only identity matters (history entries, event payloads, the per-path
stamps written by the listener and the stores) they are modelled as
natural numbers; the aggregation over already-stored stats
(`getTotalStats` / `calculateStatsFromPaths`) is modelled over the
strings the store actually holds, with the JS default sort embedded as
lexicographic code-unit comparison and the `new Date()` parse kept as
an explicit valuation parameter, because those two orders on locale
date strings are not the chronological order.
-/

namespace FileSortify

/-- Per-path statistics, from `PathConfig.stats` in `src/types/index.ts`. -/
structure PathStats where
  filesOrganized : Nat
  lastOrganized : Option Nat
  monitoringSince : Option Nat
deriving Repr, DecidableEq

/-- A configured watched path, from `PathConfig` in `src/types/index.ts`. -/
structure PathConfig where
  id : String
  path : String
  name : String
  isMonitoring : Bool
  autoOrganize : Bool
  stats : PathStats
deriving Repr, DecidableEq

/-- The source tag of a history entry, from `source: 'manual' | 'monitoring'`
in `src/stores/historyStore.ts`. -/
inductive HistorySource where
  | manual
  | monitoring
deriving Repr, DecidableEq

/-- A history entry, from `FileHistoryEntry` in `src/stores/historyStore.ts`. -/
structure FileHistoryEntry where
  id : String
  file_name : String
  original_path : String
  moved_to_path : String
  category : String
  timestamp : Nat
  folder_path : String
  source : HistorySource
deriving Repr, DecidableEq

/-- The payload supplied to `addHistoryEntry` (the entry minus `id` and
`source`, per `Omit<FileHistoryEntry, 'id' | 'source'>`). -/
structure NewHistoryEntry where
  file_name : String
  original_path : String
  moved_to_path : String
  category : String
  timestamp : Nat
  folder_path : String
deriving Repr, DecidableEq

/-- `addHistoryEntry` from `src/stores/historyStore.ts`: builds the full
entry (fresh id supplied by the caller; `source` hard-coded to
`'monitoring'`), prepends it and keeps the most recent 500 entries. -/
def addHistoryEntry (newId : String) (e : NewHistoryEntry)
    (entries : List FileHistoryEntry) : List FileHistoryEntry :=
  ({ id := newId
     file_name := e.file_name
     original_path := e.original_path
     moved_to_path := e.moved_to_path
     category := e.category
     timestamp := e.timestamp
     folder_path := e.folder_path
     source := HistorySource.monitoring } :: entries).take 500

/-- `getHistoryEntries` from `src/stores/historyStore.ts`. -/
def getHistoryEntries (limit : Nat) (entries : List FileHistoryEntry) :
    List FileHistoryEntry :=
  entries.take limit

/-- `getHistoryEntries()` with its default `limit = 100`. -/
def getHistoryEntriesDefault (entries : List FileHistoryEntry) :
    List FileHistoryEntry :=
  getHistoryEntries 100 entries

/-- `removeHistoryEntry` from `src/stores/historyStore.ts`. -/
def removeHistoryEntry (entryId : String) (entries : List FileHistoryEntry) :
    List FileHistoryEntry :=
  entries.filter (fun en => en.id ≠ entryId)

/-- The `partialize` projection of the history store persist options:
only the most recent 200 entries are written to persistent storage. -/
def partializeHistory (entries : List FileHistoryEntry) :
    List FileHistoryEntry :=
  entries.take 200

/-! ## configStore (category rules), from `src/stores/configStore.ts` -/

/-- The category table `config.categories`: category name to extension
list, as an insertion-ordered association list (a JS object). -/
abbrev Categories := List (String × List String)

/-- Look up a category's extension list (`config.categories[name]`). -/
def getCat (cfg : Categories) (name : String) : Option (List String) :=
  (cfg.find? (fun p => p.1 = name)).map (fun p => p.2)

/-- `{ ...categories, [name]: exts }`: replace the value at an existing
key in place, otherwise append the new key at the end. -/
def setCat (cfg : Categories) (name : String) (exts : List String) :
    Categories :=
  if (cfg.find? (fun p => p.1 = name)).isSome then
    cfg.map (fun p => if p.1 = name then (name, exts) else p)
  else
    cfg ++ [(name, exts)]

/-- Errors thrown by the rule mutations in `configStore.ts`. -/
inductive CfgErr where
  | categoryNameExists
  | extensionFormatInvalid
  | extensionExists
deriving Repr, DecidableEq

/-- The JS `s.trim()`: strip whitespace from both ends. -/
def jsTrim (s : String) : String :=
  String.mk
    (((s.toList.dropWhile Char.isWhitespace).reverse.dropWhile
      Char.isWhitespace).reverse)

/-- The JS test `s.startsWith('.')`: the first character is a dot. -/
def startsWithDot (s : String) : Bool :=
  match s.toList with
  | '.' :: _ => true
  | _ => false

/-- The extension normalization inside `addCategory`:
`ext = ext.trim(); return ext.startsWith('.') ? ext : '.' + ext`. -/
def normalizeCatExt (ext : String) : String :=
  let e := jsTrim ext
  if startsWithDot e then e else "." ++ e

/-- `addCategory` from `configStore.ts`: rejects an existing name, then
stores the trimmed, dot-prefixed extensions of length greater than 1.
No further format validation is performed. -/
def addCategory (cfg : Categories) (name : String) (extensions : List String) :
    Except CfgErr Categories :=
  if (getCat cfg name).isSome then
    .error .categoryNameExists
  else
    .ok (cfg ++ [(name,
      (extensions.map normalizeCatExt).filter (fun e => e.length > 1))])

/-- `deleteCategory` from `configStore.ts`. -/
def deleteCategory (cfg : Categories) (categoryName : String) : Categories :=
  cfg.filter (fun p => p.1 ≠ categoryName)

/-- The normalization inside `addExtension`:
`extension.startsWith('.') ? extension : '.' + extension`. -/
def normExt (extension : String) : String :=
  if startsWithDot extension then extension else "." ++ extension

/-- A JavaScript word character, `\w` = `[A-Za-z0-9_]`. -/
def isWordChar (c : Char) : Bool :=
  c.isAlphanum || c = '_'

/-- The test `/^\.[\w]+$/.test(normalizedExt)` in `addExtension`. -/
def extFormatOk (s : String) : Bool :=
  match s.toList with
  | '.' :: c :: cs => (c :: cs).all isWordChar
  | _ => false

/-- `addExtension` from `configStore.ts`: validates the normalized
extension against `^\.[\w]+$`, rejects duplicates, then appends it to
the category's list (creating the category if absent). -/
def addExtension (cfg : Categories) (categoryName extension : String) :
    Except CfgErr Categories :=
  let ne := normExt extension
  if !extFormatOk ne then
    .error .extensionFormatInvalid
  else if ((getCat cfg categoryName).getD []).contains ne then
    .error .extensionExists
  else
    .ok (setCat cfg categoryName (((getCat cfg categoryName).getD []) ++ [ne]))

/-- `removeExtension` from `configStore.ts`. -/
def removeExtension (cfg : Categories) (categoryName extension : String) :
    Categories :=
  setCat cfg categoryName
    (((getCat cfg categoryName).getD []).filter (fun e => e ≠ extension))

/-- The extension format claimed by the spec: `^\.[A-Za-z0-9]+$`. -/
def specExtFormat (s : String) : Bool :=
  match s.toList with
  | '.' :: c :: cs => (c :: cs).all Char.isAlphanum
  | _ => false

/-- The spec's claimed invariant: every stored extension matches
`^\.[A-Za-z0-9]+$`. -/
def cfgInvSpec (cfg : Categories) : Bool :=
  cfg.all (fun p => p.2.all specExtFormat)

/-- The invariant the code actually maintains through `addExtension`,
`removeExtension` and `deleteCategory`: every stored extension matches
`^\.[\w]+$`. -/
def cfgInvWord (cfg : Categories) : Bool :=
  cfg.all (fun p => p.2.all extFormatOk)

/-- The weaker invariant maintained by `addCategory`: every stored
extension starts with a dot and has length at least 2. -/
def cfgInvDot (cfg : Categories) : Bool :=
  cfg.all (fun p => p.2.all (fun e => startsWithDot e && e.length > 1))

/-! ## pathsStore, from `src/stores/pathsStore.ts` -/

/-- Index of the first element satisfying a predicate (the JS
`findIndex`, with `none` for `-1`). -/
def listFindIdx (pred : α → Bool) : List α → Option Nat
  | [] => none
  | a :: as => if pred a then some 0 else (listFindIdx pred as).map (· + 1)

/-- Replace the element at an index, leaving the rest unchanged
(`updatedPaths[pathIndex] = ...`). -/
def listModify (f : α → α) : Nat → List α → List α
  | _, [] => []
  | 0, a :: as => f a :: as
  | n + 1, a :: as => a :: listModify f n as

/-- A `Partial<PathConfig>` update object as used by `updatePath`
callers: present fields overwrite, absent fields are kept. -/
structure PathUpdates where
  path : Option String
  name : Option String
  isMonitoring : Option Bool
  autoOrganize : Option Bool
  stats : Option PathStats
deriving Repr, DecidableEq

/-- The update object touching nothing. -/
def PathUpdates.none' : PathUpdates :=
  { path := none, name := none, isMonitoring := none, autoOrganize := none,
    stats := none }

/-- The spread merge `{ ...paths[i], ...updates }`. -/
def applyUpdates (u : PathUpdates) (p : PathConfig) : PathConfig :=
  { id := p.id
    path := u.path.getD p.path
    name := u.name.getD p.name
    isMonitoring := u.isMonitoring.getD p.isMonitoring
    autoOrganize := u.autoOrganize.getD p.autoOrganize
    stats := u.stats.getD p.stats }

/-- `updatePath` from `pathsStore.ts`: finds the first path with the
given id and merges the updates into it; errors when the id is absent. -/
def updatePath (paths : List PathConfig) (pathId : String) (u : PathUpdates) :
    Except String (List PathConfig) :=
  match listFindIdx (fun p => p.id = pathId) paths with
  | none => .error "path does not exist"
  | some i => .ok (listModify (applyUpdates u) i paths)

/-- Modelled from the spec: the Rust `toggle_monitoring` command
(MonitorSupervisor, spec section 4.5).  Its state is the set of folder
paths with a live watcher; toggling flips membership of the given folder
and returns the new monitoring state. -/
def toggleBackend (folder : String) (mon : List String) :
    Bool × List String :=
  if folder ∈ mon then (false, mon.erase folder)
  else (true, folder :: mon)

/-- The paths registry together with the modelled watcher registry. -/
structure PathsAndMon where
  paths : List PathConfig
  mon : List String
deriving Repr, DecidableEq

/-- `togglePathMonitoring` from `pathsStore.ts`: finds the path by id,
asks the backend to toggle monitoring of its folder, then stores
`isMonitoring` = new state and `monitoringSince` = now on start /
`null` on stop. -/
def togglePathMonitoring (now : Nat) (pathId : String) (st : PathsAndMon) :
    Except String (Bool × PathsAndMon) :=
  match st.paths.find? (fun p => p.id = pathId) with
  | none => .error "path does not exist"
  | some p =>
    let r := toggleBackend p.path st.mon
    let u : PathUpdates :=
      { PathUpdates.none' with
        isMonitoring := some r.1
        stats := some { p.stats with
          monitoringSince := if r.1 then some now else none } }
    match updatePath st.paths pathId u with
    | .error e => .error e
    | .ok paths' => .ok (r.1, ⟨paths', r.2⟩)

/-- The JS `parseInt(result.match(/\d+/)?.[0] || '0')`: the value of the
first maximal run of decimal digits in the string, `0` if none. -/
def firstDigitRun : List Char → List Char
  | [] => []
  | c :: cs => if c.isDigit then (c :: cs).takeWhile Char.isDigit
               else firstDigitRun cs

/-- Digit-list to number, as `parseInt` reads a digit string. -/
def digitsToNat (ds : List Char) : Nat :=
  ds.foldl (fun n c => n * 10 + (c.toNat - 48)) 0

/-- `parseInt(s.match(/\d+/)?.[0] || '0')`. -/
def parseFirstNat (s : String) : Nat :=
  digitsToNat (firstDigitRun s.toList)

/-- `organizePathFiles` from `pathsStore.ts`: the backend message `msg`
is the string resolved by the `organize_files` command; the store parses
the first digit run out of it as the moved-file count, adds it to the
owning path's `filesOrganized` and stamps `lastOrganized`, returning
that count. -/
def organizePathFiles (now : Nat) (pathId : String) (msg : String)
    (paths : List PathConfig) : Except String (Nat × List PathConfig) :=
  match paths.find? (fun p => p.id = pathId) with
  | none => .error "path does not exist"
  | some p =>
    let fileCount := parseFirstNat msg
    let u : PathUpdates :=
      { PathUpdates.none' with
        stats := some { filesOrganized := p.stats.filesOrganized + fileCount
                        lastOrganized := some now
                        monitoringSince := p.stats.monitoringSince } }
    match updatePath paths pathId u with
    | .error e => .error e
    | .ok paths' => .ok (fileCount, paths')

/-! ### The stats aggregation, over the string timestamps the store
actually holds (`toLocaleString()` outputs / event timestamp strings).
The registry types above use `Nat` timestamps where only identity
matters; the aggregation's behaviour depends on two string orders, so
it gets its own faithful representation. -/

/-- Per-path statistics as stored: timestamps are strings. -/
structure PathStatsS where
  filesOrganized : Nat
  lastOrganized : Option String
  monitoringSince : Option String
deriving Repr, DecidableEq

/-- A configured watched path with string-timestamp stats. -/
structure PathConfigS where
  id : String
  path : String
  name : String
  isMonitoring : Bool
  autoOrganize : Bool
  stats : PathStatsS
deriving Repr, DecidableEq

/-- The aggregate record returned by `getTotalStats`. -/
structure TotalStatsS where
  filesOrganized : Nat
  lastOrganized : Option String
  monitoringSince : Option String
deriving Repr, DecidableEq

/-- One step of the `lastOrganized` part of the `reduce` in
`getTotalStats`: keep `path.stats.lastOrganized` when it is non-null
and `new Date(path's) > new Date(total's)` (or total's is null).  The
JS `Date` parse of the stored string is environment-dependent; it is
kept as an explicit valuation `dateOf` from strings to instants. -/
def stepLastS (dateOf : String → Nat) (acc x : Option String) :
    Option String :=
  match x, acc with
  | some t, none => some t
  | some t, some a => if dateOf a < dateOf t then some t else some a
  | none, a => a

/-- The `<=`-part of the JS default sort comparator on strings:
lexicographic comparison by code unit. -/
def lexLE : List Char → List Char → Bool
  | [], _ => true
  | _ :: _, [] => false
  | a :: as, b :: bs =>
    if a.toNat < b.toNat then true
    else if b.toNat < a.toNat then false
    else lexLE as bs

/-- The smaller of two strings under the JS default sort order. -/
def strMin (a b : String) : String :=
  if lexLE a.toList b.toList then a else b

/-- The `monitoringSince` expression of `getTotalStats`: if some path is
monitoring, `.filter(Boolean).sort()[0] || null` over the monitoring
paths' `monitoringSince` strings — the least string under the JS
default (lexicographic) sort — else `null`. -/
def monSinceS (paths : List PathConfigS) : Option String :=
  if paths.any (fun p => p.isMonitoring) then
    match ((paths.filter (fun p => p.isMonitoring)).filterMap
        (fun p => p.stats.monitoringSince)) with
    | [] => none
    | x :: xs => some (xs.foldl strMin x)
  else none

/-- `getTotalStats` from `pathsStore.ts` (the same `reduce` underlies
`calculateStatsFromPaths` in `statsStore.ts`), parameterized by the
environment's `Date`-parse valuation of the stored strings. -/
def getTotalStatsS (dateOf : String → Nat) (paths : List PathConfigS) :
    TotalStatsS :=
  paths.foldl
    (fun total p =>
      { filesOrganized := total.filesOrganized + p.stats.filesOrganized
        lastOrganized :=
          stepLastS dateOf total.lastOrganized p.stats.lastOrganized
        monitoringSince := monSinceS paths })
    { filesOrganized := 0, lastOrganized := none, monitoringSince := none }

/-- Everything up to and including the first `/`. -/
def dropThroughSlash : List Char → List Char
  | [] => []
  | c :: cs => if c = '/' then cs else dropThroughSlash cs

/-- Modelled from the claim's words: the chronological key denoted by a
U.S.-locale date string `month/day/year, …` — year, then month, then
day — used to compare the claimed "earliest"/"latest" with what the
code's string orders actually pick. -/
def usDateKey (s : String) : Nat :=
  let l := s.toList
  let m := digitsToNat (firstDigitRun l)
  let l2 := dropThroughSlash l
  let d := digitsToNat (firstDigitRun l2)
  let l3 := dropThroughSlash l2
  let y := digitsToNat (firstDigitRun l3)
  (y * 100 + m) * 100 + d

/-- A monitoring path whose `monitoringSince` locale string denotes the
chronologically later instant but sorts lexicographically first. -/
def pathLexA : PathConfigS :=
  { id := "p1", path := "/w", name := "W", isMonitoring := true,
    autoOrganize := false,
    stats := { filesOrganized := 0, lastOrganized := none,
               monitoringSince := some "10/11/2026, 20:00:00" } }

/-- A monitoring path whose `monitoringSince` locale string denotes the
chronologically earlier instant but sorts lexicographically later. -/
def pathLexB : PathConfigS :=
  { id := "p2", path := "/v", name := "V", isMonitoring := true,
    autoOrganize := false,
    stats := { filesOrganized := 0, lastOrganized := none,
               monitoringSince := some "9/1/2026, 01:00:00" } }

/-! ## The `file-organized` listener, from `src/contexts/I18nContext.tsx` -/

/-- The payload of a `file-organized` event (spec section 6; listener in
`I18nContext.tsx`).  `folder_path` is optional in the listener's type. -/
structure OrganizedPayload where
  file_name : String
  actual_file_name : String
  category : String
  timestamp : Nat
  folder_path : Option String
  original_path : String
  moved_to_path : String
deriving Repr, DecidableEq

/-- Where a move outcome originated (spec-level notion: a batch organize
run or a directory watcher).  The event payload does not carry it. -/
inductive MoveOrigin where
  | batch
  | watcher
deriving Repr, DecidableEq

/-- The source tag the claim says a history entry derived from an
outcome of the given origin must carry: `'manual'` for batch outcomes,
`'monitoring'` for watcher outcomes. -/
def claimedTag : MoveOrigin → HistorySource
  | .batch => .manual
  | .watcher => .monitoring

/-- The `file-organized` listener in `I18nContext.tsx`: when the payload
has a `folder_path` it adds one history entry built from the payload's
fields, then increments `filesOrganized` of the first registered path
whose folder equals `folder_path` (if any) and sets its `lastOrganized`
to the event's timestamp.  Returns the new history entries and paths. -/
def handleFileOrganizedCore (newId : String) (pl : OrganizedPayload)
    (fp : String) (entries : List FileHistoryEntry)
    (paths : List PathConfig) :
    List FileHistoryEntry × List PathConfig :=
  let entries' := addHistoryEntry newId
    { file_name := pl.actual_file_name
      original_path := pl.original_path
      moved_to_path := pl.moved_to_path
      category := pl.category
      timestamp := pl.timestamp
      folder_path := fp } entries
  let paths' :=
    match paths.find? (fun p => p.path = fp) with
    | none => paths
    | some p =>
      let u : PathUpdates :=
        { PathUpdates.none' with
          stats := some { filesOrganized := p.stats.filesOrganized + 1
                          lastOrganized := some pl.timestamp
                          monitoringSince := p.stats.monitoringSince } }
      match updatePath paths p.id u with
      | .error _ => paths
      | .ok ps => ps
  (entries', paths')

/-- The `file-organized` listener: events without a `folder_path` leave
both stores untouched; otherwise `handleFileOrganizedCore` runs. -/
def handleFileOrganized (newId : String) (pl : OrganizedPayload)
    (entries : List FileHistoryEntry) (paths : List PathConfig) :
    List FileHistoryEntry × List PathConfig :=
  match pl.folder_path with
  | none => (entries, paths)
  | some fp => handleFileOrganizedCore newId pl fp entries paths

/-! ## Undo, from `src/components/HistoryView.tsx`

Paths and backend messages are modelled as character lists; the JS
string operations `includes` and `split(sep)[1]` used by `handleUndo`
are embedded below. -/

/-- `s.includes(sub)`: substring containment. -/
def jsIncludes (s sub : List Char) : Bool :=
  decide (sub <:+: s)

/-- Split at the first occurrence of `sep`: the part before it and the
part after it, `none` when `sep` does not occur. -/
def firstSplit (sep : List Char) : List Char → Option (List Char × List Char)
  | [] => none
  | c :: rest =>
    if sep <+: (c :: rest) then some ([], (c :: rest).drop sep.length)
    else
      match firstSplit sep rest with
      | none => none
      | some (b, a) => some (c :: b, a)

/-- `s.split(sep)[1]`: the second segment of the JS split (the empty
string when the separator does not occur, which the caller never
reaches). -/
def jsSplitSecond (s sep : List Char) : List Char :=
  match firstSplit sep s with
  | none => []
  | some (_, after) =>
    match firstSplit sep after with
    | none => after
    | some (b, _) => b

/-- The separator `' -> '` the undo handler parses out of the
`move_file_direct` result. -/
def sepStr : List Char := [' ', '-', '>', ' ']

/-- A decimal digit character. -/
def decDigit : Nat → Char
  | 0 => '0'
  | 1 => '1'
  | 2 => '2'
  | 3 => '3'
  | 4 => '4'
  | 5 => '5'
  | 6 => '6'
  | 7 => '7'
  | 8 => '8'
  | 9 => '9'
  | _ => '*'

/-- Decimal rendering of a natural number (fueled division loop). -/
def natDigitsAux : Nat → Nat → List Char
  | 0, _ => []
  | fuel + 1, n =>
    if n < 10 then [decDigit n]
    else natDigitsAux fuel (n / 10) ++ [decDigit (n % 10)]

/-- Decimal rendering of a natural number. -/
def natDigits (n : Nat) : List Char :=
  natDigitsAux (n + 1) n

/-- Length of the trailing `.ext` segment of a reversed path, scanning
from the end of the original path: `none` when the basename has no
extension (no dot, or only a leading dot). -/
def extLenRev : List Char → Nat → Option Nat
  | [], _ => none
  | c :: cs, n =>
    if c = '.' then
      match cs with
      | [] => none
      | d :: _ => if d = '/' then none else some (n + 1)
    else if c = '/' then none
    else extLenRev cs (n + 1)

/-- Length of the trailing `.ext` segment of a path, `0` when the
basename has no extension. -/
def extSplitIdx (p : List Char) : Nat :=
  (extLenRev p.reverse 0).getD 0

/-- Modelled from the spec: the rename-on-conflict candidate of
MoveEngine (spec section 4.2), `name (k).ext`, the numeric suffix
inserted before the extension. -/
def renameK (p : List Char) (k : Nat) : List Char :=
  let e := extSplitIdx p
  p.take (p.length - e) ++ (' ' :: '(' :: natDigits k) ++
    (')' :: p.drop (p.length - e))

/-- Modelled from the spec: MoveEngine's bounded rename search (spec
section 4.2): the target itself when free, else the first of
`name (1).ext` … `name (1000).ext` that is free, `none` when all 1000
candidates are taken (`CollisionExhausted`). -/
def resolveCollision (target : List Char) (fs : List (List Char)) :
    Option (List Char) :=
  if target ∈ fs then
    ((List.range 1000).map (fun k => renameK target (k + 1))).find?
      (fun c => decide (c ∉ fs))
  else some target

/-- MoveEngine errors that reach the undo handler. -/
inductive MoveErr where
  | notFound
  | collisionExhausted
deriving Repr, DecidableEq

/-- Modelled from the spec: the Rust `move_file_direct` command — the
conflict-safe MoveEngine primitive (spec section 4.2) used identically
by forward moves and undo.  The filesystem is the list of occupied
paths; a successful move deletes the source and creates the resolved
destination, never overwriting. -/
def moveFileDirect (source target : List Char) (fs : List (List Char)) :
    Except MoveErr (List Char × List (List Char)) :=
  if source ∈ fs then
    let fs1 := fs.erase source
    match resolveCollision target fs1 with
    | none => .error .collisionExhausted
    | some r => .ok (r, r :: fs1)
  else
    .error .notFound

/-- Modelled from the spec: the result string of `move_file_direct`,
`source -> resolvedDestination` — the format the undo handler in
`HistoryView.tsx` parses with `includes(' -> ')` and
`split(' -> ')[1]`. -/
def moveMsg (source r : List Char) : List Char :=
  source ++ sepStr ++ r

/-- What the undo handler reports back to the user. -/
inductive UndoReport where
  | blockedMonitoring
  | cancelled
  | failed (e : MoveErr)
  | successAtOriginal
  | successRenamed (actualPath : List Char)
deriving Repr, DecidableEq

/-- The state the undo handler can observe or change. -/
structure UndoOutcome where
  report : UndoReport
  paths : List PathConfig
  entries : List FileHistoryEntry
  fs : List (List Char)
deriving Repr, DecidableEq

/-- `handleUndo` from `HistoryView.tsx`: refuses while any path is
monitoring; after user confirmation moves the file back from
`moved_to_path` to `original_path` through `move_file_direct`, removes
the history entry, and reports success — naming the actual path parsed
out of the result when the result indicates a rename (`' -> '` present
and the original path absent from the message). -/
def handleUndo (confirmed : Bool) (action : FileHistoryEntry)
    (paths : List PathConfig) (entries : List FileHistoryEntry)
    (fs : List (List Char)) : UndoOutcome :=
  if paths.any (fun p => p.isMonitoring) then
    ⟨.blockedMonitoring, paths, entries, fs⟩
  else if !confirmed then
    ⟨.cancelled, paths, entries, fs⟩
  else
    let src := action.moved_to_path.toList
    let tgt := action.original_path.toList
    match moveFileDirect src tgt fs with
    | .error e => ⟨.failed e, paths, entries, fs⟩
    | .ok (r, fs') =>
      let result := moveMsg src r
      let entries' := removeHistoryEntry action.id entries
      if jsIncludes result sepStr && !(jsIncludes result tgt) then
        ⟨.successRenamed (jsSplitSecond result sepStr), paths, entries', fs'⟩
      else
        ⟨.successAtOriginal, paths, entries', fs'⟩

/-- Modelled from the spec: what the spec says the `organize` command
returns — an aggregated `movedCount` — paired with the string message
that actually crosses the Tauri boundary (`organize_files` resolves to a
string per `src/utils/tauri.ts`). -/
structure OrganizeRunReport where
  movedCount : Nat
  message : String
deriving Repr, DecidableEq

/-- A sample `file-organized` payload used for concrete evaluations. -/
def samplePayload : OrganizedPayload :=
  { file_name := "a.jpg", actual_file_name := "a.jpg", category := "Images",
    timestamp := 7, folder_path := some "/w", original_path := "/w/a.jpg",
    moved_to_path := "/w/Images/a.jpg" }

/-- A sample registered path used for concrete evaluations. -/
def samplePath : PathConfig :=
  { id := "p1", path := "/w", name := "W", isMonitoring := false,
    autoOrganize := false,
    stats := { filesOrganized := 0, lastOrganized := none,
               monitoringSince := none } }

/-- A sample history entry used for concrete evaluations of undo. -/
def sampleAction : FileHistoryEntry :=
  { id := "i1", file_name := "a.txt", original_path := "/d/a.txt",
    moved_to_path := "/d/Img/a.txt", category := "Img", timestamp := 3,
    folder_path := "/d", source := .monitoring }

/-- A history entry for an extensionless file, used for concrete
evaluations of undo with a conflicting original location. -/
def extlessAction : FileHistoryEntry :=
  { id := "i2", file_name := "a", original_path := "/d/a",
    moved_to_path := "/d/Img/a", category := "Img", timestamp := 4,
    folder_path := "/d", source := .monitoring }

/-! ## Shared list lemmas -/

theorem listModify_getElem?_self (f : α → α) (i : Nat) (l : List α) (a : α)
    (h : l[i]? = some a) : (listModify f i l)[i]? = some (f a) := by
  induction l generalizing i with
  | nil => simp at h
  | cons x xs ih =>
    cases i with
    | zero => simp_all [listModify]
    | succ n => simpa [listModify] using ih n (by simpa using h)

theorem listModify_getElem?_ne (f : α → α) {i j : Nat} (l : List α)
    (h : j ≠ i) : (listModify f i l)[j]? = l[j]? := by
  induction l generalizing i j with
  | nil => simp [listModify]
  | cons x xs ih =>
    cases i with
    | zero =>
      cases j with
      | zero => exact absurd rfl h
      | succ m => simp [listModify]
    | succ n =>
      cases j with
      | zero => simp [listModify]
      | succ m => simpa [listModify] using ih (fun hc => h (by omega))

theorem listFindIdx_spec {pred : α → Bool} {l : List α} {i : Nat}
    (h : listFindIdx pred l = some i) :
    ∃ a, l[i]? = some a ∧ pred a = true := by
  induction l generalizing i with
  | nil => simp [listFindIdx] at h
  | cons x xs ih =>
    by_cases hx : pred x = true
    · simp [listFindIdx, hx] at h
      exact ⟨x, by simp [← h], hx⟩
    · simp [listFindIdx, hx] at h
      obtain ⟨n, hn, hni⟩ := h
      obtain ⟨a, ha, hpa⟩ := ih hn
      exact ⟨a, by simpa [← hni] using ha, hpa⟩

theorem find?_listFindIdx {pred : α → Bool} {l : List α} {a : α}
    (h : l.find? pred = some a) :
    ∃ i, listFindIdx pred l = some i ∧ l[i]? = some a := by
  induction l with
  | nil => simp at h
  | cons x xs ih =>
    by_cases hx : pred x = true
    · refine ⟨0, by simp [listFindIdx, hx], ?_⟩
      rw [List.find?_cons_of_pos _ hx] at h
      simp [← Option.some_inj.mp h]
    · rw [List.find?_cons_of_neg _ (by simpa using hx)] at h
      obtain ⟨i, hi, ha⟩ := ih h
      exact ⟨i + 1, by simp [listFindIdx, hx, hi], by simpa using ha⟩

theorem nodup_map_getElem?_inj {f : α → β} {l : List α}
    (hnd : (l.map f).Nodup) {i j : Nat} {a b : α}
    (ha : l[i]? = some a) (hb : l[j]? = some b) (hf : f a = f b) : i = j := by
  induction l generalizing i j with
  | nil => simp at ha
  | cons x xs ih =>
    simp only [List.map_cons, List.nodup_cons] at hnd
    cases i with
    | zero =>
      cases j with
      | zero => rfl
      | succ m =>
        simp only [List.getElem?_cons_zero, Option.some.injEq] at ha
        simp only [List.getElem?_cons_succ] at hb
        have hbmem : b ∈ xs := List.getElem?_mem hb
        have hin : f x ∈ List.map f xs := by
          rw [ha, hf]
          exact List.mem_map_of_mem f hbmem
        exact absurd hin hnd.1
    | succ n =>
      cases j with
      | zero =>
        simp only [List.getElem?_cons_zero, Option.some.injEq] at hb
        simp only [List.getElem?_cons_succ] at ha
        have hamem : a ∈ xs := List.getElem?_mem ha
        have hin : f x ∈ List.map f xs := by
          rw [hb, ← hf]
          exact List.mem_map_of_mem f hamem
        exact absurd hin hnd.1
      | succ m =>
        simp only [List.getElem?_cons_succ] at ha hb
        exact congrArg (· + 1) (ih hnd.2 ha hb)

/-! ## Claim C8 and C9 -/

/-- C8: the undo handler never reaches the file-move command while any
registered path is monitoring: it returns a warning report and leaves
the history list, the paths and the filesystem unchanged. -/
theorem C8_undo_blocked_while_monitoring
    (confirmed : Bool) (action : FileHistoryEntry) (paths : List PathConfig)
    (entries : List FileHistoryEntry) (fs : List (List Char))
    (h : paths.any (fun p => p.isMonitoring) = true) :
    handleUndo confirmed action paths entries fs =
      ⟨.blockedMonitoring, paths, entries, fs⟩ := by
  simp [handleUndo, h]

/-- Witness for C8 at a concrete monitoring registry. -/
theorem C8_undo_blocked_witness :
    handleUndo true
      { id := "i1", file_name := "a.txt", original_path := "/d/a.txt",
        moved_to_path := "/d/Img/a.txt", category := "Img", timestamp := 3,
        folder_path := "/d", source := .monitoring }
      [{ id := "p1", path := "/w", name := "W", isMonitoring := true,
         autoOrganize := false,
         stats := { filesOrganized := 0, lastOrganized := none,
                    monitoringSince := none } }]
      [] [] =
      ⟨.blockedMonitoring,
       [{ id := "p1", path := "/w", name := "W", isMonitoring := true,
          autoOrganize := false,
          stats := { filesOrganized := 0, lastOrganized := none,
                     monitoringSince := none } }],
       [], []⟩ :=
  C8_undo_blocked_while_monitoring true _ _ [] [] (by decide)

/-- C9: the history store is bounded and newest-first: `addHistoryEntry`
prepends the new entry and keeps at most 500; `getHistoryEntries` takes
at most `limit` entries (default 100) from the front; at most 200
entries are persisted. -/
theorem C9_history_bounds (newId : String) (e : NewHistoryEntry)
    (entries : List FileHistoryEntry) (limit : Nat) :
    (addHistoryEntry newId e entries).length ≤ 500
    ∧ addHistoryEntry newId e entries =
        { id := newId, file_name := e.file_name,
          original_path := e.original_path,
          moved_to_path := e.moved_to_path, category := e.category,
          timestamp := e.timestamp, folder_path := e.folder_path,
          source := .monitoring } :: entries.take 499
    ∧ (getHistoryEntries limit entries).length ≤ limit
    ∧ getHistoryEntries limit entries <+: entries
    ∧ (getHistoryEntriesDefault entries).length ≤ 100
    ∧ getHistoryEntriesDefault entries <+: entries
    ∧ (partializeHistory entries).length ≤ 200
    ∧ partializeHistory entries <+: entries := by
  refine ⟨?_, ?_, ?_, ?_, ?_, ?_, ?_, ?_⟩
  · simpa [addHistoryEntry] using min_le_left 500 (entries.length + 1)
  · simp [addHistoryEntry]
  · simpa [getHistoryEntries] using min_le_left limit entries.length
  · exact List.take_prefix limit entries
  · simpa [getHistoryEntriesDefault, getHistoryEntries] using
      min_le_left 100 entries.length
  · exact List.take_prefix 100 entries
  · simpa [partializeHistory] using min_le_left 200 entries.length
  · exact List.take_prefix 200 entries

/-! ## Claim C2 -/

theorem mem_setCat {cfg : Categories} {name : String} {v : List String}
    {p : String × List String} (h : p ∈ setCat cfg name v) :
    p ∈ cfg ∨ p = (name, v) := by
  unfold setCat at h
  by_cases hf : ((cfg.find? (fun q => q.1 = name)).isSome : Prop)
  · rw [if_pos hf] at h
    obtain ⟨q, hq, he⟩ := List.mem_map.mp h
    by_cases hqn : q.1 = name
    · right
      rw [if_pos hqn] at he
      exact he.symm
    · left
      rw [if_neg hqn] at he
      exact he ▸ hq
  · rw [if_neg hf] at h
    rcases List.mem_append.mp h with hl | hr
    · exact Or.inl hl
    · exact Or.inr (by simpa using hr)

theorem getCat_mem {cfg : Categories} {name : String} {l : List String}
    (h : getCat cfg name = some l) : (name, l) ∈ cfg := by
  unfold getCat at h
  obtain ⟨q, hq, he⟩ := Option.map_eq_some'.mp h
  have h1 : q.1 = name := by simpa using List.find?_some hq
  have h2 : q ∈ cfg := List.mem_of_find?_eq_some hq
  have : q = (name, l) := by
    cases q
    simp_all
  exact this ▸ h2

theorem normalizeCatExt_dot (x : String) :
    startsWithDot (normalizeCatExt x) = true := by
  unfold normalizeCatExt
  by_cases h : startsWithDot (jsTrim x) = true
  · simpa [h]
  · have hb : startsWithDot (jsTrim x) = false := by simpa using h
    simp only [hb, if_false, Bool.false_eq_true]
    unfold startsWithDot
    have hl : ("." ++ jsTrim x).toList = '.' :: (jsTrim x).toList := by
      simp
    rw [hl]
    rfl

/-- C2 counterexample: `addCategory` accepts the extension `"a b"`
unvalidated, storing `".a b"`, which breaks the claimed invariant
`^\.[A-Za-z0-9]+$` on a configuration that satisfied it. -/
theorem C2_ext_format_counterexample :
    addCategory [] "X" ["a b"] = .ok [("X", [".a b"])]
    ∧ cfgInvSpec [] = true
    ∧ cfgInvSpec [("X", [".a b"])] = false := by
  exact ⟨rfl, rfl, by decide⟩

theorem invWord_mem {cfg : Categories} (hw : cfgInvWord cfg = true)
    {p : String × List String} (hp : p ∈ cfg) {e : String} (he : e ∈ p.2) :
    extFormatOk e = true := by
  rw [cfgInvWord, List.all_eq_true] at hw
  exact List.all_eq_true.mp (hw p hp) e he

theorem invWord_getCat {cfg : Categories} (hw : cfgInvWord cfg = true)
    (name : String) {e : String} (he : e ∈ (getCat cfg name).getD []) :
    extFormatOk e = true := by
  cases hg : getCat cfg name with
  | none => rw [hg] at he; simp at he
  | some l =>
    rw [hg] at he
    exact invWord_mem hw (getCat_mem hg) he

/-- C2 (amended): only `addExtension` format-validates and only against
`^\.[\w]+$` (leading dot, then letters, digits or underscores, any
case); `removeExtension` and `deleteCategory` never add extensions, so
all three preserve the invariant "every stored extension matches
`^\.[\w]+$`"; `addCategory` performs no format validation — it only
trims, prepends a missing leading dot and drops results of length at
most 1, so it preserves only the weaker invariant "every stored
extension starts with a dot and is at least two characters long". -/
theorem C2_mutation_validation (cfg cfg' : Categories) (name ext : String)
    (exts : List String) :
    (addExtension cfg name ext = .ok cfg' → cfgInvWord cfg = true →
      cfgInvWord cfg' = true)
    ∧ (cfgInvWord cfg = true →
        cfgInvWord (removeExtension cfg name ext) = true)
    ∧ (cfgInvWord cfg = true → cfgInvWord (deleteCategory cfg name) = true)
    ∧ (addCategory cfg name exts = .ok cfg' → cfgInvDot cfg = true →
        cfgInvDot cfg' = true) := by
  refine ⟨?_, ?_, ?_, ?_⟩
  · intro h hw
    unfold addExtension at h
    by_cases hf : extFormatOk (normExt ext) = true
    · rw [if_neg (by simp [hf])] at h
      by_cases hc : ((getCat cfg name).getD []).contains (normExt ext) = true
      · rw [if_pos hc] at h
        cases h
      · rw [if_neg hc] at h
        have hceq : cfg' =
            setCat cfg name (((getCat cfg name).getD []) ++ [normExt ext]) := by
          cases h
          rfl
        subst hceq
        rw [cfgInvWord, List.all_eq_true]
        intro p hp
        rcases mem_setCat hp with hin | heq
        · exact List.all_eq_true.mpr fun e he => invWord_mem hw hin he
        · subst heq
          rw [List.all_eq_true]
          intro e he
          rcases List.mem_append.mp he with hold | hnew
          · exact invWord_getCat hw name hold
          · simpa [List.mem_singleton.mp hnew] using hf
    · rw [if_pos (by simp [hf])] at h
      cases h
  · intro hw
    rw [cfgInvWord, List.all_eq_true]
    intro p hp
    rcases mem_setCat hp with hin | heq
    · exact List.all_eq_true.mpr fun e he => invWord_mem hw hin he
    · subst heq
      rw [List.all_eq_true]
      intro e he
      exact invWord_getCat hw name (List.mem_of_mem_filter he)
  · intro hw
    rw [cfgInvWord, List.all_eq_true]
    intro p hp
    exact List.all_eq_true.mpr fun e he =>
      invWord_mem hw (List.mem_of_mem_filter hp) he
  · intro h hd
    unfold addCategory at h
    by_cases hg : ((getCat cfg name).isSome : Prop)
    · rw [if_pos hg] at h
      cases h
    · rw [if_neg hg] at h
      have hceq : cfg' = cfg ++ [(name,
          (exts.map normalizeCatExt).filter (fun e => e.length > 1))] := by
        cases h
        rfl
      subst hceq
      rw [cfgInvDot, List.all_eq_true]
      intro p hp
      rcases List.mem_append.mp hp with hin | hnew
      · rw [cfgInvDot, List.all_eq_true] at hd
        exact hd p hin
      · have hpe := List.mem_singleton.mp hnew
        subst hpe
        rw [List.all_eq_true]
        intro e he
        have he1 := List.of_mem_filter he
        have he2 := List.mem_of_mem_filter he
        obtain ⟨x, _, hx⟩ := List.mem_map.mp he2
        subst hx
        simp [normalizeCatExt_dot, he1]

/-- Witness for C2 (amended): a concrete `addExtension` run preserving
the `^\.[\w]+$` invariant. -/
theorem C2_mutation_validation_witness :
    cfgInvWord [("Docs", [".pdf"])] = true :=
  (C2_mutation_validation [] [("Docs", [".pdf"])] "Docs" "pdf" []).1
    (by rfl) (by rfl)

/-! ## Claim C3 -/

/-- C3 counterexample: the history entry the listener derives from a
batch-originated outcome does not carry the claimed `'manual'` tag —
`addHistoryEntry` hard-codes `'monitoring'`. -/
theorem C3_source_tag_counterexample :
    ¬ ((handleFileOrganized "id0" samplePayload [] []).1.head?.map
        (fun en => en.source) = some (claimedTag .batch)) := by
  decide

/-- C3 (amended): every consumed `file-organized` event carrying a
`folder_path` yields exactly one new history entry, prepended and
derived 1:1 from the payload's fields, but its source tag is the
constant `'monitoring'` whatever the outcome's origin; events without
`folder_path` yield no entry. -/
theorem C3_history_derivation (newId : String) (pl : OrganizedPayload)
    (entries : List FileHistoryEntry) (paths : List PathConfig) :
    (∀ fp, pl.folder_path = some fp →
      (handleFileOrganized newId pl entries paths).1 =
        ({ id := newId, file_name := pl.actual_file_name,
           original_path := pl.original_path,
           moved_to_path := pl.moved_to_path, category := pl.category,
           timestamp := pl.timestamp, folder_path := fp,
           source := .monitoring } :: entries).take 500)
    ∧ (pl.folder_path = none →
        (handleFileOrganized newId pl entries paths).1 = entries) := by
  constructor
  · intro fp hfp
    unfold handleFileOrganized
    rw [hfp]
    rfl
  · intro hfp
    unfold handleFileOrganized
    rw [hfp]

/-- Witness for C3 (amended) at a concrete payload. -/
theorem C3_history_derivation_witness :
    (handleFileOrganized "id0" samplePayload [] []).1 =
      [{ id := "id0", file_name := "a.jpg", original_path := "/w/a.jpg",
         moved_to_path := "/w/Images/a.jpg", category := "Images",
         timestamp := 7, folder_path := "/w", source := .monitoring }] := by
  simpa using
    (C3_history_derivation "id0" samplePayload [] []).1 "/w" rfl

/-! ## Claim C4 -/

theorem listFindIdx_of_mem {pred : α → Bool} {l : List α} {a : α}
    (ha : a ∈ l) (hp : pred a = true) :
    ∃ i, listFindIdx pred l = some i := by
  induction l with
  | nil => simp at ha
  | cons x xs ih =>
    by_cases hx : pred x = true
    · exact ⟨0, by simp [listFindIdx, hx]⟩
    · rcases List.mem_cons.mp ha with heq | hmem
      · exact absurd (heq ▸ hp) hx
      · obtain ⟨i, hi⟩ := ih hmem
        exact ⟨i + 1, by simp [listFindIdx, hx, hi]⟩

/-- C4: for a `file-organized` event whose `folder_path` is the folder
of a registered path, the listener updates that owning path only:
`filesOrganized` goes up by exactly 1, `lastOrganized` becomes the
event's timestamp, everything else — including every other registered
path — is unchanged. -/
theorem C4_stats_update (newId : String) (pl : OrganizedPayload)
    (entries : List FileHistoryEntry) (paths : List PathConfig)
    (fp : String) (p : PathConfig)
    (hfp : pl.folder_path = some fp)
    (hfind : paths.find? (fun q => q.path = fp) = some p)
    (hnd : (paths.map (fun q => q.id)).Nodup) :
    ∃ i paths',
      listFindIdx (fun q => q.id = p.id) paths = some i
      ∧ handleFileOrganized newId pl entries paths =
          (addHistoryEntry newId
            { file_name := pl.actual_file_name
              original_path := pl.original_path
              moved_to_path := pl.moved_to_path
              category := pl.category
              timestamp := pl.timestamp
              folder_path := fp } entries, paths')
      ∧ paths'[i]? = some { p with stats :=
          { filesOrganized := p.stats.filesOrganized + 1,
            lastOrganized := some pl.timestamp,
            monitoringSince := p.stats.monitoringSince } }
      ∧ ∀ j q, j ≠ i → paths[j]? = some q → paths'[j]? = some q := by
  have hpmem : p ∈ paths := List.mem_of_find?_eq_some hfind
  obtain ⟨i, hi⟩ := @listFindIdx_of_mem PathConfig
    (fun q => decide (q.id = p.id)) paths p hpmem (decide_eq_true rfl)
  obtain ⟨q0, hq0, hq0p⟩ := listFindIdx_spec hi
  have hq0id : q0.id = p.id := of_decide_eq_true hq0p
  obtain ⟨j0, hj0⟩ := List.getElem?_of_mem hpmem
  have hij : i = j0 := nodup_map_getElem?_inj hnd hq0 hj0 hq0id
  have hip : paths[i]? = some p := by rw [hij]; exact hj0
  refine ⟨i, listModify
    (applyUpdates { PathUpdates.none' with
      stats := some { filesOrganized := p.stats.filesOrganized + 1
                      lastOrganized := some pl.timestamp
                      monitoringSince := p.stats.monitoringSince } })
    i paths, hi, ?_, ?_, ?_⟩
  · unfold handleFileOrganized
    rw [hfp]
    show handleFileOrganizedCore newId pl fp entries paths = _
    unfold handleFileOrganizedCore
    rw [hfind]
    simp only [updatePath, hi]
  · have hm := listModify_getElem?_self
      (applyUpdates { PathUpdates.none' with
        stats := some { filesOrganized := p.stats.filesOrganized + 1
                        lastOrganized := some pl.timestamp
                        monitoringSince := p.stats.monitoringSince } })
      i paths p hip
    rw [hm]
    simp [applyUpdates, PathUpdates.none']
  · intro j q hj hjq
    rw [listModify_getElem?_ne _ paths hj]
    exact hjq

/-- Witness for C4 at a concrete event and registry. -/
theorem C4_stats_update_witness :
    (handleFileOrganized "id0" samplePayload [] [samplePath]).2[0]? =
      some { id := "p1", path := "/w", name := "W", isMonitoring := false,
             autoOrganize := false,
             stats := { filesOrganized := 1, lastOrganized := some 7,
                        monitoringSince := none } } := by
  obtain ⟨i, paths', h1, h2, h3, h4⟩ :=
    C4_stats_update "id0" samplePayload [] [samplePath] "/w" samplePath
      rfl (by rfl) (by decide)
  have hi0 : listFindIdx (fun q => q.id = samplePath.id) [samplePath] =
      some 0 := by decide
  rw [hi0] at h1
  have hieq : i = 0 := (Option.some_inj.mp h1).symm
  subst hieq
  rw [h2]
  simpa [samplePath] using h3

/-! ## Claims C5 and C6 -/

/-- C5: `togglePathMonitoring` on a registered id returns the new
monitoring state and leaves that path with `isMonitoring` equal to the
returned state; `monitoringSince` is set to now exactly on start and
cleared to `null` on stop, so it is non-null precisely when the new
state is true. -/
theorem C5_toggle_monitoring (now : Nat) (pid : String) (st : PathsAndMon)
    (p : PathConfig)
    (hfind : st.paths.find? (fun q => q.id = pid) = some p) :
    ∃ b st' i q,
      togglePathMonitoring now pid st = .ok (b, st')
      ∧ (b = true ↔ p.path ∉ st.mon)
      ∧ listFindIdx (fun q => q.id = pid) st.paths = some i
      ∧ st'.paths[i]? = some q
      ∧ q.isMonitoring = b
      ∧ q.stats.monitoringSince = (if b then some now else none)
      ∧ (q.stats.monitoringSince ≠ none ↔ b = true) := by
  obtain ⟨i, hi, hip⟩ := find?_listFindIdx hfind
  have hb : (toggleBackend p.path st.mon).1 = true ↔ p.path ∉ st.mon := by
    unfold toggleBackend
    by_cases hm : p.path ∈ st.mon <;> simp [hm]
  refine ⟨(toggleBackend p.path st.mon).1,
    ⟨listModify (applyUpdates
      { PathUpdates.none' with
        isMonitoring := some (toggleBackend p.path st.mon).1
        stats := some { p.stats with
          monitoringSince :=
            if (toggleBackend p.path st.mon).1 then some now
            else none } }) i st.paths, (toggleBackend p.path st.mon).2⟩, i,
    applyUpdates
      { PathUpdates.none' with
        isMonitoring := some (toggleBackend p.path st.mon).1
        stats := some { p.stats with
          monitoringSince :=
            if (toggleBackend p.path st.mon).1 then some now else none } } p,
    ?_, hb, hi, ?_, ?_, ?_, ?_⟩
  · unfold togglePathMonitoring
    rw [hfind]
    simp only [updatePath, hi]
  · exact listModify_getElem?_self _ i st.paths p hip
  · simp [applyUpdates]
  · simp [applyUpdates]
  · simp only [applyUpdates, Option.getD_some]
    by_cases hc : (toggleBackend p.path st.mon).1 = true <;> simp [hc]

/-- Witness for C5: starting monitoring on a concrete registry. -/
theorem C5_toggle_monitoring_witness :
    ∃ r, togglePathMonitoring 5 "p1" ⟨[samplePath], []⟩ = .ok r
      ∧ r.1 = true
      ∧ r.2.paths[0]?.map (fun q => q.stats.monitoringSince) =
          some (some 5) := by
  obtain ⟨b, st', i, q, h1, h2, h3, h4, h5, h6, h7⟩ :=
    C5_toggle_monitoring 5 "p1" ⟨[samplePath], []⟩ samplePath (by rfl)
  have hb : b = true := h2.mpr (by simp)
  have hi0 : listFindIdx (fun q => q.id = "p1") [samplePath] = some 0 := by
    decide
  rw [hi0] at h3
  have hieq : i = 0 := (Option.some_inj.mp h3).symm
  subst hieq
  subst hb
  refine ⟨(true, st'), h1, rfl, ?_⟩
  rw [h4]
  simp [h6]

/-- C6: toggling monitoring of one path id never disturbs any other
registered path's entry, and the modelled watcher registry keeps at
most one binding per folder: entries with a different id are unchanged,
the backend registry stays duplicate-free, and membership of any other
folder is untouched. -/
theorem C6_toggle_frame (now : Nat) (pid : String) (st : PathsAndMon)
    (p : PathConfig)
    (hfind : st.paths.find? (fun q => q.id = pid) = some p)
    (hmnd : st.mon.Nodup) :
    ∃ b st',
      togglePathMonitoring now pid st = .ok (b, st')
      ∧ (∀ (j : Nat) (q : PathConfig), st.paths[j]? = some q → q.id ≠ pid →
          st'.paths[j]? = some q)
      ∧ st'.mon.Nodup
      ∧ (∀ f, f ≠ p.path → (f ∈ st'.mon ↔ f ∈ st.mon)) := by
  obtain ⟨i, hi, hip⟩ := find?_listFindIdx hfind
  obtain ⟨q0, hq0, hq0p⟩ := listFindIdx_spec hi
  have hq0id : q0.id = pid := of_decide_eq_true hq0p
  refine ⟨(toggleBackend p.path st.mon).1,
    ⟨listModify (applyUpdates
      { PathUpdates.none' with
        isMonitoring := some (toggleBackend p.path st.mon).1
        stats := some { p.stats with
          monitoringSince :=
            if (toggleBackend p.path st.mon).1 then some now
            else none } }) i st.paths, (toggleBackend p.path st.mon).2⟩,
    ?_, ?_, ?_, ?_⟩
  · unfold togglePathMonitoring
    rw [hfind]
    simp only [updatePath, hi]
  · intro j q hjq hqid
    have hj : j ≠ i := by
      intro hji
      rw [hji, hq0] at hjq
      exact hqid ((Option.some_inj.mp hjq) ▸ hq0id)
    rw [listModify_getElem?_ne _ st.paths hj]
    exact hjq
  · unfold toggleBackend
    by_cases hm : p.path ∈ st.mon
    · simpa [hm] using hmnd.erase p.path
    · simp [hm, List.nodup_cons, hmnd]
  · intro f hf
    unfold toggleBackend
    by_cases hm : p.path ∈ st.mon
    · simpa [hm] using List.mem_erase_of_ne hf
    · simp [hm, List.mem_cons, hf]

/-- Witness for C6: toggling one of two registered paths. -/
theorem C6_toggle_frame_witness :
    ∃ b st', togglePathMonitoring 5 "p1"
      ⟨[samplePath,
        { id := "p2", path := "/v", name := "V", isMonitoring := false,
          autoOrganize := false,
          stats := { filesOrganized := 3, lastOrganized := none,
                     monitoringSince := none } }], []⟩ = .ok (b, st')
      ∧ st'.paths[1]? = some
          { id := "p2", path := "/v", name := "V", isMonitoring := false,
            autoOrganize := false,
            stats := { filesOrganized := 3, lastOrganized := none,
                       monitoringSince := none } }
      ∧ st'.mon.Nodup := by
  obtain ⟨b, st', h1, h2, h3, h4⟩ :=
    C6_toggle_frame 5 "p1"
      ⟨[samplePath,
        { id := "p2", path := "/v", name := "V", isMonitoring := false,
          autoOrganize := false,
          stats := { filesOrganized := 3, lastOrganized := none,
                     monitoringSince := none } }], []⟩ samplePath
      (by rfl) (by decide)
  exact ⟨b, st', h1, h2 1 _ (by rfl) (by decide), h3⟩

/-! ## Claim C7 -/

/-- C7 counterexample: the `organize_files` command resolves to a plain
string, not a structured `{ movedCount, outcomes }` record, and the
caller recovers the count by parsing the first digit run of the string:
on a message whose first digits come from a renamed destination, the
caller adds 2 while the run's aggregated moved count is 1. -/
theorem C7_structured_result_counterexample :
    (OrganizeRunReport.mk 1 "a.jpg -> Images/photo (2).jpg").movedCount = 1
    ∧ organizePathFiles 9 "p1"
        (OrganizeRunReport.mk 1 "a.jpg -> Images/photo (2).jpg").message
        [samplePath] = .ok (2,
          [{ id := "p1", path := "/w", name := "W", isMonitoring := false,
             autoOrganize := false,
             stats := { filesOrganized := 2, lastOrganized := some 9,
                        monitoringSince := none } }])
    ∧ (2 : Nat) ≠ 1 := by
  refine ⟨rfl, ?_, by decide⟩
  rfl

/-- C7 (amended): `organizePathFiles` parses the first run of decimal
digits of the backend's string message (0 if none) as the moved count,
returns exactly that count, adds exactly that count to the owning
path's `filesOrganized`, stamps `lastOrganized`, and leaves every other
registered path unchanged. -/
theorem C7_parse_count (now : Nat) (pid msg : String)
    (paths : List PathConfig) (p : PathConfig)
    (hfind : paths.find? (fun q => q.id = pid) = some p) :
    ∃ i paths',
      listFindIdx (fun q => q.id = pid) paths = some i
      ∧ organizePathFiles now pid msg paths = .ok (parseFirstNat msg, paths')
      ∧ paths'[i]? = some { p with stats :=
          { filesOrganized := p.stats.filesOrganized + parseFirstNat msg,
            lastOrganized := some now,
            monitoringSince := p.stats.monitoringSince } }
      ∧ ∀ j q, j ≠ i → paths[j]? = some q → paths'[j]? = some q := by
  obtain ⟨i, hi, hip⟩ := find?_listFindIdx hfind
  refine ⟨i, listModify (applyUpdates
      { PathUpdates.none' with
        stats := some { filesOrganized :=
                          p.stats.filesOrganized + parseFirstNat msg
                        lastOrganized := some now
                        monitoringSince := p.stats.monitoringSince } })
      i paths, hi, ?_, ?_, ?_⟩
  · unfold organizePathFiles
    rw [hfind]
    simp only [updatePath, hi]
  · have hm := listModify_getElem?_self
      (applyUpdates { PathUpdates.none' with
        stats := some { filesOrganized :=
                          p.stats.filesOrganized + parseFirstNat msg
                        lastOrganized := some now
                        monitoringSince := p.stats.monitoringSince } })
      i paths p hip
    rw [hm]
    simp [applyUpdates, PathUpdates.none']
  · intro j q hj hjq
    rw [listModify_getElem?_ne _ paths hj]
    exact hjq

/-- Witness for C7 (amended) at a concrete message. -/
theorem C7_parse_count_witness :
    (organizePathFiles 11 "p1" "Organized 3 files" [samplePath]).toOption.map
      (fun r => r.1) = some 3 := by
  obtain ⟨i, paths', h1, h2, h3, h4⟩ :=
    C7_parse_count 11 "p1" "Organized 3 files" [samplePath] samplePath
      (by rfl)
  rw [h2]
  rfl

/-! ## Claim C1: string-detection lemmas -/

theorem sep_not_mid {x y : List Char} (hg : '>' ∉ x) (hx : x ≠ []) :
    ¬ sepStr <+: x ++ (sepStr ++ y) := by
  intro hp
  obtain ⟨t, ht⟩ := hp
  match x, hx with
  | [a], _ =>
    simp only [sepStr, List.cons_append, List.nil_append,
      List.cons.injEq] at ht
    exact absurd ht.2.1.symm (by decide)
  | a :: b :: x'', _ =>
    simp only [sepStr, List.cons_append, List.cons.injEq] at ht
    cases x'' with
    | nil =>
      simp only [List.nil_append, List.cons.injEq] at ht
      exact absurd ht.2.2.1.symm (by decide)
    | cons c x''' =>
      simp only [List.cons_append, List.cons.injEq] at ht
      exact hg (by simp [ht.2.2.1.symm])

theorem firstSplit_marked (src r : List Char) (h : '>' ∉ src) :
    firstSplit sepStr (src ++ (sepStr ++ r)) = some (src, r) := by
  induction src with
  | nil =>
    show firstSplit sepStr (' ' :: ('-' :: '>' :: ' ' :: r)) = some ([], r)
    rw [firstSplit, if_pos]
    · rfl
    · exact ⟨r, rfl⟩
  | cons a x' ih =>
    have hax' : '>' ∉ x' := fun hc => h (List.mem_cons_of_mem a hc)
    show firstSplit sepStr (a :: (x' ++ (sepStr ++ r))) = some (a :: x', r)
    rw [firstSplit, if_neg, ih hax']
    exact sep_not_mid h (by simp)

theorem firstSplit_none_of_not_mem {s : List Char} (h : '>' ∉ s) :
    firstSplit sepStr s = none := by
  induction s with
  | nil => rfl
  | cons c rest ih =>
    have hcr : '>' ∉ rest := fun hc => h (List.mem_cons_of_mem c hc)
    rw [firstSplit, if_neg, ih hcr]
    intro hp
    exact h (hp.subset (by decide))

theorem jsSplitSecond_marked {src r : List Char} (hs : '>' ∉ src)
    (hr : '>' ∉ r) :
    jsSplitSecond (src ++ (sepStr ++ r)) sepStr = r := by
  unfold jsSplitSecond
  rw [firstSplit_marked src r hs]
  dsimp only
  rw [firstSplit_none_of_not_mem hr]

/-! ## Claim C1: rename-candidate lemmas -/

theorem decDigit_isDigit {n : Nat} (h : n < 10) :
    (decDigit n).isDigit = true := by
  interval_cases n <;> decide

theorem natDigitsAux_digit (fuel : Nat) :
    ∀ (n : Nat) (c : Char), c ∈ natDigitsAux fuel n → c.isDigit = true := by
  induction fuel with
  | zero => intro n c hc; simp [natDigitsAux] at hc
  | succ f ih =>
    intro n c hc
    rw [natDigitsAux] at hc
    by_cases h : n < 10
    · rw [if_pos h] at hc
      rw [List.mem_singleton.mp hc]
      exact decDigit_isDigit h
    · rw [if_neg h] at hc
      rcases List.mem_append.mp hc with h1 | h2
      · exact ih _ c h1
      · rw [List.mem_singleton.mp h2]
        exact decDigit_isDigit (Nat.mod_lt n (by omega))

theorem gt_not_mem_renameK {p : List Char} (hp : '>' ∉ p) (k : Nat) :
    '>' ∉ renameK p k := by
  intro hmem
  unfold renameK at hmem
  rcases List.mem_append.mp hmem with h1 | h2
  · rcases List.mem_append.mp h1 with h3 | h4
    · exact hp (List.take_subset _ _ h3)
    · rcases List.mem_cons.mp h4 with h5 | h6
      · exact absurd h5 (by decide)
      · rcases List.mem_cons.mp h6 with h7 | h8
        · exact absurd h7 (by decide)
        · have := natDigitsAux_digit _ _ _ h8
          simp at this
  · rcases List.mem_cons.mp h2 with h5 | h6
    · exact absurd h5 (by decide)
    · exact hp (List.drop_subset _ _ h6)

theorem extLenRev_le : ∀ (l : List Char) (n m : Nat),
    extLenRev l n = some m → m ≤ n + l.length := by
  intro l
  induction l with
  | nil => intro n m h; simp [extLenRev] at h
  | cons c cs ih =>
    intro n m h
    rw [extLenRev.eq_def] at h
    dsimp only at h
    by_cases hd : c = '.'
    · rw [if_pos hd] at h
      cases cs with
      | nil => simp at h
      | cons d cs' =>
        dsimp only at h
        by_cases hsl : d = '/'
        · rw [if_pos hsl] at h
          cases h
        · rw [if_neg hsl] at h
          have hm : m = n + 1 := (Option.some_inj.mp h).symm
          simp only [hm, List.length_cons]
          omega
    · rw [if_neg hd] at h
      by_cases hsl : c = '/'
      · rw [if_pos hsl] at h
        cases h
      · rw [if_neg hsl] at h
        have := ih (n + 1) m h
        simp [List.length_cons]
        omega

theorem extSplitIdx_le (p : List Char) : extSplitIdx p ≤ p.length := by
  unfold extSplitIdx
  cases h : extLenRev p.reverse 0 with
  | none => simp
  | some m =>
    have := extLenRev_le p.reverse 0 m h
    simpa using this

theorem natDigits_length_pos (k : Nat) : 0 < (natDigits k).length := by
  unfold natDigits natDigitsAux
  by_cases h : k < 10
  · simp [h]
  · simp [h]

theorem renameK_length (p : List Char) (k : Nat) :
    (renameK p k).length = p.length + 3 + (natDigits k).length := by
  unfold renameK
  have he := extSplitIdx_le p
  simp only [List.length_append, List.length_take, List.length_cons,
    List.length_drop]
  omega

theorem renameK_ne (p : List Char) (k : Nat) : renameK p k ≠ p := by
  intro heq
  have hl := congrArg List.length heq
  rw [renameK_length] at hl
  have := natDigits_length_pos k
  omega

theorem resolveCollision_free {tgt : List Char} {fs : List (List Char)}
    (h : tgt ∉ fs) : resolveCollision tgt fs = some tgt := by
  unfold resolveCollision
  rw [if_neg h]

theorem resolveCollision_occupied {tgt r : List Char}
    {fs : List (List Char)} (ht : tgt ∈ fs)
    (h : resolveCollision tgt fs = some r) :
    (∃ k, r = renameK tgt k) ∧ r ∉ fs := by
  unfold resolveCollision at h
  rw [if_pos ht] at h
  constructor
  · have hmem := List.mem_of_find?_eq_some h
    obtain ⟨k, _, hk⟩ := List.mem_map.mp hmem
    exact ⟨k + 1, hk.symm⟩
  · simpa using List.find?_some h

theorem handleUndo_ok (action : FileHistoryEntry) (paths : List PathConfig)
    (entries : List FileHistoryEntry) (fs : List (List Char))
    (r : List Char) (fs' : List (List Char))
    (hmon : paths.any (fun p => p.isMonitoring) = false)
    (hmv : moveFileDirect action.moved_to_path.toList
      action.original_path.toList fs = .ok (r, fs')) :
    handleUndo true action paths entries fs =
      if jsIncludes (moveMsg action.moved_to_path.toList r) sepStr
          && !(jsIncludes (moveMsg action.moved_to_path.toList r)
            action.original_path.toList) then
        ⟨.successRenamed
          (jsSplitSecond (moveMsg action.moved_to_path.toList r) sepStr),
         paths, removeHistoryEntry action.id entries, fs'⟩
      else
        ⟨.successAtOriginal, paths, removeHistoryEntry action.id entries,
         fs'⟩ := by
  unfold handleUndo
  rw [hmon]
  rw [if_neg (by simp)]
  rw [if_neg (by decide)]
  dsimp only
  rw [hmv]

/-- C1 (amended): undo is routed through the conflict-safe move
primitive.  With monitoring off and the moved file present: if the
original location is free, the handler reports success with the file
restored at its original path; if it is occupied, the move resolves to
a renamed destination (never overwriting, never a failure), and the
handler names the actual resolved path exactly when its string test
detects the rename — the result message does not contain the original
path; when the original path does occur inside the message, the success
report instead claims the original path while the file actually sits at
the renamed destination. -/
theorem C1_undo_routed_through_move
    (action : FileHistoryEntry) (paths : List PathConfig)
    (entries : List FileHistoryEntry) (fs : List (List Char))
    (hmon : paths.any (fun p => p.isMonitoring) = false)
    (hsrc : action.moved_to_path.toList ∈ fs)
    (hgs : '>' ∉ action.moved_to_path.toList)
    (hgt : '>' ∉ action.original_path.toList) :
    (action.original_path.toList ∉
        fs.erase action.moved_to_path.toList →
      handleUndo true action paths entries fs =
        ⟨.successAtOriginal, paths, removeHistoryEntry action.id entries,
         action.original_path.toList ::
           fs.erase action.moved_to_path.toList⟩)
    ∧ (∀ r, action.original_path.toList ∈
          fs.erase action.moved_to_path.toList →
        resolveCollision action.original_path.toList
          (fs.erase action.moved_to_path.toList) = some r →
        ¬ action.original_path.toList <:+:
            moveMsg action.moved_to_path.toList r →
        handleUndo true action paths entries fs =
          ⟨.successRenamed r, paths, removeHistoryEntry action.id entries,
           r :: fs.erase action.moved_to_path.toList⟩
        ∧ r ≠ action.original_path.toList
        ∧ r ∉ fs.erase action.moved_to_path.toList)
    ∧ (∀ r, action.original_path.toList ∈
          fs.erase action.moved_to_path.toList →
        resolveCollision action.original_path.toList
          (fs.erase action.moved_to_path.toList) = some r →
        action.original_path.toList <:+:
            moveMsg action.moved_to_path.toList r →
        handleUndo true action paths entries fs =
          ⟨.successAtOriginal, paths, removeHistoryEntry action.id entries,
           r :: fs.erase action.moved_to_path.toList⟩
        ∧ r ≠ action.original_path.toList
        ∧ r ∉ fs.erase action.moved_to_path.toList) := by
  refine ⟨?_, ?_, ?_⟩
  · intro hA
    have hmv : moveFileDirect action.moved_to_path.toList
        action.original_path.toList fs =
        .ok (action.original_path.toList,
          action.original_path.toList ::
            fs.erase action.moved_to_path.toList) := by
      unfold moveFileDirect
      rw [if_pos hsrc]
      dsimp only
      rw [resolveCollision_free hA]
    rw [handleUndo_ok action paths entries fs _ _ hmon hmv]
    have hinc : jsIncludes
        (moveMsg action.moved_to_path.toList action.original_path.toList)
        action.original_path.toList = true := by
      apply decide_eq_true
      exact ⟨action.moved_to_path.toList ++ sepStr, [], by simp [moveMsg]⟩
    rw [if_neg (by rw [hinc]; simp)]
  · intro r hB hres hnc
    obtain ⟨⟨k, hk⟩, hrnot⟩ := resolveCollision_occupied hB hres
    have hgr : '>' ∉ r := by
      rw [hk]
      exact gt_not_mem_renameK hgt k
    have hrne : r ≠ action.original_path.toList := by
      rw [hk]
      exact renameK_ne _ k
    have hmv : moveFileDirect action.moved_to_path.toList
        action.original_path.toList fs =
        .ok (r, r :: fs.erase action.moved_to_path.toList) := by
      unfold moveFileDirect
      rw [if_pos hsrc]
      dsimp only
      rw [hres]
    rw [handleUndo_ok action paths entries fs _ _ hmon hmv]
    have hsep : jsIncludes (moveMsg action.moved_to_path.toList r)
        sepStr = true := by
      apply decide_eq_true
      exact ⟨action.moved_to_path.toList, r, by simp [moveMsg]⟩
    have hnt : jsIncludes (moveMsg action.moved_to_path.toList r)
        action.original_path.toList = false := decide_eq_false hnc
    rw [if_pos (by rw [hsep, hnt]; rfl)]
    refine ⟨?_, hrne, hrnot⟩
    have hjs : jsSplitSecond (moveMsg action.moved_to_path.toList r)
        sepStr = r := by
      have hmm : moveMsg action.moved_to_path.toList r =
          action.moved_to_path.toList ++ (sepStr ++ r) := by
        simp [moveMsg]
      rw [hmm]
      exact jsSplitSecond_marked hgs hgr
    rw [hjs]
  · intro r hB hres hin
    obtain ⟨⟨k, hk⟩, hrnot⟩ := resolveCollision_occupied hB hres
    have hrne : r ≠ action.original_path.toList := by
      rw [hk]
      exact renameK_ne _ k
    have hmv : moveFileDirect action.moved_to_path.toList
        action.original_path.toList fs =
        .ok (r, r :: fs.erase action.moved_to_path.toList) := by
      unfold moveFileDirect
      rw [if_pos hsrc]
      dsimp only
      rw [hres]
    rw [handleUndo_ok action paths entries fs _ _ hmon hmv]
    have hinc : jsIncludes (moveMsg action.moved_to_path.toList r)
        action.original_path.toList = true := decide_eq_true hin
    refine ⟨?_, hrne, hrnot⟩
    rw [if_neg (by rw [hinc]; simp)]

set_option maxRecDepth 8000 in
/-- C1 counterexample: undoing the move of an extensionless file into an
occupied original location: the move primitive renames the restore to
`/d/a (1)`, whose path contains the original `/d/a`, so the handler's
`result.includes(originalPath)` test is true and it reports plain
success at the original path instead of naming the actual resolved
path. -/
theorem C1_report_counterexample :
    handleUndo true extlessAction [] []
        ["/d/Img/a".toList, "/d/a".toList] =
      ⟨.successAtOriginal, [], [], ["/d/a (1)".toList, "/d/a".toList]⟩
    ∧ ("/d/a (1)".toList : List Char) ≠ "/d/a".toList := by
  exact ⟨rfl, by decide⟩

set_option maxRecDepth 8000 in
/-- Witness for C1 (amended): a concrete undo without conflict restores
the original name; an occupied `.txt` original is restored to the `(1)`
variant with the resolved path reported; an occupied extensionless
original is restored to the `(1)` variant with the report claiming the
original path. -/
theorem C1_undo_witness :
    handleUndo true sampleAction [] [] ["/d/Img/a.txt".toList] =
      ⟨.successAtOriginal, [], [], ["/d/a.txt".toList]⟩
    ∧ handleUndo true sampleAction [] []
        ["/d/Img/a.txt".toList, "/d/a.txt".toList] =
      ⟨.successRenamed ("/d/a (1).txt".toList), [], [],
       ["/d/a (1).txt".toList, "/d/a.txt".toList]⟩
    ∧ handleUndo true extlessAction [] []
        ["/d/Img/a".toList, "/d/a".toList] =
      ⟨.successAtOriginal, [], [], ["/d/a (1)".toList, "/d/a".toList]⟩ := by
  refine ⟨?_, ?_, ?_⟩
  · exact (C1_undo_routed_through_move sampleAction [] []
      ["/d/Img/a.txt".toList] (by decide) (by decide) (by decide)
      (by decide)).1 (by decide)
  · exact ((C1_undo_routed_through_move sampleAction [] []
      ["/d/Img/a.txt".toList, "/d/a.txt".toList] (by decide) (by decide)
      (by decide) (by decide)).2.1 ("/d/a (1).txt".toList) (by decide)
      (by rfl) (by decide)).1
  · exact ((C1_undo_routed_through_move extlessAction [] []
      ["/d/Img/a".toList, "/d/a".toList] (by decide) (by decide)
      (by decide) (by decide)).2.2 ("/d/a (1)".toList) (by decide)
      (by rfl) (by decide)).1

/-! ## Claim C10 -/

theorem lexLE_refl (a : List Char) : lexLE a a = true := by
  induction a with
  | nil => rfl
  | cons c cs ih => simp [lexLE, ih]

theorem lexLE_total (a : List Char) :
    ∀ b, lexLE a b = true ∨ lexLE b a = true := by
  induction a with
  | nil => intro b; exact Or.inl rfl
  | cons c cs ih =>
    intro b
    cases b with
    | nil => exact Or.inr rfl
    | cons d ds =>
      by_cases h1 : c.toNat < d.toNat
      · exact Or.inl (by simp [lexLE, h1])
      · by_cases h2 : d.toNat < c.toNat
        · exact Or.inr (by simp [lexLE, h2])
        · rcases ih ds with h | h
          · exact Or.inl (by simp [lexLE, h1, h2, h])
          · exact Or.inr (by simp [lexLE, h1, h2, h])

theorem lexLE_trans : ∀ {a b c : List Char}, lexLE a b = true →
    lexLE b c = true → lexLE a c = true := by
  intro a
  induction a with
  | nil => intro b c _ _; rfl
  | cons x xs ih =>
    intro b c hab hbc
    cases b with
    | nil => simp [lexLE] at hab
    | cons y ys =>
      cases c with
      | nil => simp [lexLE] at hbc
      | cons z zs =>
        rw [lexLE] at hab hbc ⊢
        by_cases hxy : x.toNat < y.toNat
        · by_cases hyz : y.toNat < z.toNat
          · rw [if_pos (show x.toNat < z.toNat by omega)]
          · by_cases hzy : z.toNat < y.toNat
            · rw [if_neg hyz, if_pos hzy] at hbc
              cases hbc
            · rw [if_pos (show x.toNat < z.toNat by omega)]
        · by_cases hyx : y.toNat < x.toNat
          · rw [if_neg hxy, if_pos hyx] at hab
            cases hab
          · rw [if_neg hxy, if_neg hyx] at hab
            by_cases hyz : y.toNat < z.toNat
            · rw [if_pos (show x.toNat < z.toNat by omega)]
            · by_cases hzy : z.toNat < y.toNat
              · rw [if_neg hyz, if_pos hzy] at hbc
                cases hbc
              · rw [if_neg hyz, if_neg hzy] at hbc
                rw [if_neg (show ¬ x.toNat < z.toNat by omega),
                  if_neg (show ¬ z.toNat < x.toNat by omega)]
                exact ih hab hbc

theorem strMin_cases (a b : String) :
    (strMin a b = a ∨ strMin a b = b)
    ∧ lexLE (strMin a b).toList a.toList = true
    ∧ lexLE (strMin a b).toList b.toList = true := by
  unfold strMin
  by_cases h : lexLE a.toList b.toList = true
  · rw [if_pos h]
    exact ⟨Or.inl rfl, lexLE_refl _, h⟩
  · rw [if_neg h]
    rcases lexLE_total a.toList b.toList with h1 | h2
    · exact absurd h1 h
    · exact ⟨Or.inr rfl, h2, lexLE_refl _⟩

theorem foldl_strMin_spec : ∀ (xs : List String) (x : String),
    (xs.foldl strMin x = x ∨ xs.foldl strMin x ∈ xs)
    ∧ lexLE (xs.foldl strMin x).toList x.toList = true
    ∧ (∀ u ∈ xs, lexLE (xs.foldl strMin x).toList u.toList = true) := by
  intro xs
  induction xs with
  | nil =>
    intro x
    exact ⟨Or.inl rfl, lexLE_refl _, by intro u hu; simp at hu⟩
  | cons y ys ih =>
    intro x
    rw [List.foldl_cons]
    obtain ⟨hm, hx, hy⟩ := strMin_cases x y
    obtain ⟨ihm, ihx, ihall⟩ := ih (strMin x y)
    refine ⟨?_, ?_, ?_⟩
    · rcases ihm with h | h
      · rcases hm with h2 | h2
        · exact Or.inl (h.trans h2)
        · refine Or.inr ?_
          rw [h, h2]
          exact List.mem_cons_self y ys
      · exact Or.inr (List.mem_cons_of_mem y h)
    · exact lexLE_trans ihx hx
    · intro u hu
      rcases List.mem_cons.mp hu with h | h
      · rw [h]
        exact lexLE_trans ihx hy
      · exact ihall u h

theorem getTotalS_foldl (dateOf : String → Nat) (ps l : List PathConfigS)
    (acc : TotalStatsS) :
    l.foldl (fun total p =>
      { filesOrganized := total.filesOrganized + p.stats.filesOrganized
        lastOrganized :=
          stepLastS dateOf total.lastOrganized p.stats.lastOrganized
        monitoringSince := monSinceS ps }) acc =
    { filesOrganized :=
        acc.filesOrganized + (l.map (fun p => p.stats.filesOrganized)).sum
      lastOrganized :=
        l.foldl (fun a p => stepLastS dateOf a p.stats.lastOrganized)
          acc.lastOrganized
      monitoringSince :=
        if l.isEmpty then acc.monitoringSince else monSinceS ps } := by
  induction l generalizing acc with
  | nil => simp
  | cons x xs ih =>
    rw [List.foldl_cons, ih]
    cases xs <;> simp [Nat.add_assoc]

theorem stepLastS_fold_spec (dateOf : String → Nat) :
    ∀ (xs : List (Option String)) (acc : Option String),
      (xs.foldl (stepLastS dateOf) acc = none ↔
        acc = none ∧ xs.filterMap id = [])
      ∧ (∀ v, xs.foldl (stepLastS dateOf) acc = some v →
          (v ∈ xs.filterMap id ∨ acc = some v)
          ∧ (∀ u ∈ xs.filterMap id, dateOf u ≤ dateOf v)
          ∧ (∀ a, acc = some a → dateOf a ≤ dateOf v)) := by
  intro xs
  induction xs with
  | nil =>
    intro acc
    constructor
    · simp
    · intro v hv
      refine ⟨Or.inr hv, by simp, ?_⟩
      intro a ha
      have hacc : acc = some v := hv
      rw [ha] at hacc
      rw [Option.some_inj.mp hacc]
  | cons x xs ih =>
    intro acc
    cases x with
    | none =>
      have hs : stepLastS dateOf acc none = acc := by cases acc <;> rfl
      constructor
      · rw [List.foldl_cons, hs]
        simpa using (ih acc).1
      · intro v hv
        rw [List.foldl_cons, hs] at hv
        simpa using (ih acc).2 v hv
    | some t =>
      have hacc : ∃ w, stepLastS dateOf acc (some t) = some w
          ∧ (w = t ∨ acc = some w)
          ∧ dateOf t ≤ dateOf w
          ∧ (∀ a, acc = some a → dateOf a ≤ dateOf w) := by
        cases acc with
        | none =>
          refine ⟨t, rfl, Or.inl rfl, Nat.le_refl _, ?_⟩
          intro a ha
          cases ha
        | some a =>
          by_cases hlt : dateOf a < dateOf t
          · refine ⟨t, ?_, Or.inl rfl, Nat.le_refl _, ?_⟩
            · simp [stepLastS, hlt]
            · intro b hb
              rw [← Option.some_inj.mp hb]
              exact Nat.le_of_lt hlt
          · refine ⟨a, ?_, Or.inr rfl, Nat.le_of_not_lt hlt, ?_⟩
            · simp [stepLastS, hlt]
            · intro b hb
              rw [← Option.some_inj.mp hb]
      obtain ⟨w, hw, hwsrc, hwt, hwacc⟩ := hacc
      constructor
      · rw [List.foldl_cons, hw]
        constructor
        · intro hnone
          exact absurd (((ih (some w)).1).mp hnone).1 (by simp)
        · intro hfm
          simp at hfm
      · intro v hv
        rw [List.foldl_cons, hw] at hv
        obtain ⟨hmem, hall, haccle⟩ := (ih (some w)).2 v hv
        have hwv : dateOf w ≤ dateOf v := haccle w rfl
        refine ⟨?_, ?_, ?_⟩
        · rcases hmem with hm | hm
          · refine Or.inl ?_
            simp only [List.filterMap_cons, id]
            exact List.mem_cons_of_mem t hm
          · have hwv' : w = v := Option.some_inj.mp hm
            rcases hwsrc with h | h
            · refine Or.inl ?_
              simp only [List.filterMap_cons, id]
              rw [← hwv', h]
              exact List.mem_cons_self t _
            · exact Or.inr (hwv' ▸ h)
        · intro u hu
          have hu' : u = t ∨ u ∈ xs.filterMap id := by
            simpa using hu
          rcases hu' with h | h
          · rw [h]
            exact Nat.le_trans hwt hwv
          · exact hall u h
        · intro a ha
          exact Nat.le_trans (hwacc a ha) hwv

/-- C10 (amended): `getTotalStats` is homomorphic for the count — total
`filesOrganized` is the sum of the per-path counts — but its timestamp
components follow the code's string orders, not the chronological
order: `lastOrganized` is a stored per-path value maximal under the
environment's `Date`-parse valuation of the stored strings (`null` iff
none is set), and `monitoringSince` is the lexicographically (JS
default sort) least non-null `monitoringSince` among monitoring paths
(`null` iff there is none) — the chronologically earliest only when
lexicographic order on the stored locale strings agrees with the
chronological order. -/
theorem C10_total_stats_amended (dateOf : String → Nat)
    (paths : List PathConfigS) :
    (getTotalStatsS dateOf paths).filesOrganized =
      (paths.map (fun p => p.stats.filesOrganized)).sum
    ∧ ((getTotalStatsS dateOf paths).lastOrganized = none ↔
        paths.filterMap (fun p => p.stats.lastOrganized) = [])
    ∧ (∀ v, (getTotalStatsS dateOf paths).lastOrganized = some v →
        v ∈ paths.filterMap (fun p => p.stats.lastOrganized)
        ∧ ∀ u ∈ paths.filterMap (fun p => p.stats.lastOrganized),
            dateOf u ≤ dateOf v)
    ∧ ((getTotalStatsS dateOf paths).monitoringSince = none ↔
        (paths.filter (fun p => p.isMonitoring)).filterMap
          (fun p => p.stats.monitoringSince) = [])
    ∧ (∀ v, (getTotalStatsS dateOf paths).monitoringSince = some v →
        v ∈ (paths.filter (fun p => p.isMonitoring)).filterMap
          (fun p => p.stats.monitoringSince)
        ∧ ∀ u ∈ (paths.filter (fun p => p.isMonitoring)).filterMap
            (fun p => p.stats.monitoringSince),
            lexLE v.toList u.toList = true) := by
  have hlast : (getTotalStatsS dateOf paths).lastOrganized =
      (paths.map (fun p => p.stats.lastOrganized)).foldl
        (stepLastS dateOf) none := by
    rw [getTotalStatsS, getTotalS_foldl]
    show paths.foldl (fun a p => stepLastS dateOf a p.stats.lastOrganized)
      none = _
    rw [List.foldl_map]
  have hmonv : (getTotalStatsS dateOf paths).monitoringSince =
      monSinceS paths := by
    rw [getTotalStatsS, getTotalS_foldl]
    show (if paths.isEmpty then none else monSinceS paths) = _
    cases paths with
    | nil => rfl
    | cons p ps => rfl
  have hfm : List.filterMap id
      (paths.map (fun p => p.stats.lastOrganized)) =
      paths.filterMap (fun p => p.stats.lastOrganized) := by
    rw [List.filterMap_map]
    rfl
  refine ⟨?_, ?_, ?_, ?_, ?_⟩
  · rw [getTotalStatsS, getTotalS_foldl]
    simp
  · rw [hlast]
    rw [(stepLastS_fold_spec dateOf
      (paths.map (fun p => p.stats.lastOrganized)) none).1, hfm]
    simp
  · intro v hv
    rw [hlast] at hv
    obtain ⟨hmem, hall, _⟩ := (stepLastS_fold_spec dateOf
      (paths.map (fun p => p.stats.lastOrganized)) none).2 v hv
    rw [hfm] at hmem hall
    rcases hmem with h | h
    · exact ⟨h, hall⟩
    · cases h
  · rw [hmonv]
    unfold monSinceS
    by_cases hm : paths.any (fun p => p.isMonitoring) = true
    · rw [if_pos hm]
      cases hl : (paths.filter (fun p => p.isMonitoring)).filterMap
          (fun p => p.stats.monitoringSince) with
      | nil => simp
      | cons x xs => simp
    · rw [if_neg hm]
      have hfe : paths.filter (fun p => p.isMonitoring) = [] := by
        rw [List.filter_eq_nil_iff]
        intro q hq hqm
        exact hm (List.any_eq_true.mpr ⟨q, hq, hqm⟩)
      rw [hfe]
      simp
  · intro v hv
    rw [hmonv] at hv
    unfold monSinceS at hv
    by_cases hm : paths.any (fun p => p.isMonitoring) = true
    · rw [if_pos hm] at hv
      cases hl : (paths.filter (fun p => p.isMonitoring)).filterMap
          (fun p => p.stats.monitoringSince) with
      | nil =>
        rw [hl] at hv
        cases hv
      | cons x xs =>
        rw [hl] at hv
        have hveq : xs.foldl strMin x = v := Option.some_inj.mp hv
        obtain ⟨hmem, hx, hall⟩ := foldl_strMin_spec xs x
        rw [hveq] at hmem hx hall
        constructor
        · rcases hmem with h | h
          · rw [h]
            exact List.mem_cons_self x xs
          · exact List.mem_cons_of_mem x h
        · intro u hu
          rcases List.mem_cons.mp hu with h | h
          · rw [h]
            exact hx
          · exact hall u h
    · rw [if_neg hm] at hv
      cases hv

set_option maxRecDepth 2000 in
/-- C10 counterexample: two monitoring paths whose `monitoringSince`
locale strings are `"10/11/2026, 20:00:00"` and `"9/1/2026, 01:00:00"`.
The code's `.sort()[0]` picks the lexicographically least string
`"10/11/…"` (since `'1' < '9'`), but that string denotes the
chronologically *later* instant — the earliest `monitoringSince` is the
other one, so the aggregate is not the claimed earliest. -/
theorem C10_order_counterexample :
    (getTotalStatsS usDateKey [pathLexA, pathLexB]).monitoringSince =
      some "10/11/2026, 20:00:00"
    ∧ pathLexB.isMonitoring = true
    ∧ pathLexB.stats.monitoringSince = some "9/1/2026, 01:00:00"
    ∧ usDateKey "9/1/2026, 01:00:00" < usDateKey "10/11/2026, 20:00:00"
    ∧ "10/11/2026, 20:00:00" ≠ "9/1/2026, 01:00:00" := by
  refine ⟨?_, rfl, rfl, by decide, by decide⟩
  rfl

/-- Witness for C10 (amended) at a concrete registry: the aggregate
`monitoringSince` is a monitoring path's stored value and a
lexicographic lower bound of all of them. -/
theorem C10_total_stats_amended_witness :
    (getTotalStatsS usDateKey [pathLexA, pathLexB]).filesOrganized = 0
    ∧ ((getTotalStatsS usDateKey [pathLexA, pathLexB]).monitoringSince =
        none ↔
        ([pathLexA, pathLexB].filter (fun p => p.isMonitoring)).filterMap
          (fun p => p.stats.monitoringSince) = []) := by
  have h := C10_total_stats_amended usDateKey [pathLexA, pathLexB]
  exact ⟨h.1, h.2.2.2.1⟩

end FileSortify
